import Mathlib

/-!
Verification of the voice-assistant pipeline core (Go sources) against its
natural-language specification.  Each Go function relevant to the examined
claims is shallowly embedded as an executable Lean definition; theorems then
settle the claims.

Modelling conventions:
* Go strings are modelled as `String` (conversation content) or `List Char`
  (when character-level processing such as lowercasing and trimming matters);
  the repository processes ASCII text, where Go byte indices and rune indices
  coincide.
* Go `int` / `uint64` are modelled as `Int` / `Nat`; `float32` audio samples
  are modelled as values of an arbitrary type where the code only moves them,
  and as `ℚ` where the code computes with them (the resampling ratio
  `toRate/fromRate` is represented exactly as a rational).
* Methods that mutate their receiver are modelled as functions returning the
  updated value.
-/

namespace VoiceAssistant

/-! ### Character and string utilities (Go `strings` / `unicode` package) -/

/-- Go `unicode.IsSpace` restricted to the ASCII whitespace characters. -/
def isSpace (c : Char) : Bool :=
  c = ' ' || c = '\t' || c = '\n' || c = '\r' || c = '\x0B' || c = '\x0C'

/-- Go `strings.TrimLeft` for a fixed cutset: drop leading characters that
belong to `cutset`. -/
def trimLeftCutset (cutset : List Char) (s : List Char) : List Char :=
  s.dropWhile (fun c => cutset.contains c)

/-- Drop trailing whitespace (the right half of Go `strings.TrimSpace`). -/
def trimTrailing (s : List Char) : List Char :=
  (s.reverse.dropWhile isSpace).reverse

/-- Go `strings.TrimSpace` on a character list. -/
def trimSpace (s : List Char) : List Char :=
  trimTrailing (s.dropWhile isSpace)

/-- Go `strings.TrimSpace` on a `String`. -/
def trimSpaceStr (s : String) : String :=
  ⟨trimSpace s.toList⟩

/-- Go `strings.ToLower` (character-wise, as for ASCII text). -/
def lower (s : List Char) : List Char :=
  s.map Char.toLower

/-- Go `strings.Index`: position of the first occurrence of `sub` in `s`
(`none` models the `-1` result). -/
def indexOfSub (s sub : List Char) : Option Nat :=
  match s with
  | [] => if sub = [] then some 0 else none
  | _ :: rest =>
      if sub.isPrefixOf s then some 0
      else (indexOfSub rest sub).map (· + 1)

/-- Go `strings.Contains`. -/
def containsSub (s sub : List Char) : Bool :=
  (indexOfSub s sub).isSome

/-! ### LLM client (package `llm`, canonical pinned-history variant) -/

namespace Llm

/-- One turn of the conversation (`api.Message`). -/
structure Message where
  role : String
  content : String
  deriving DecidableEq

/-- The Ollama client state (`llm.Client`).  The HTTP handle and the
`temperature : float32` field play no role in the history semantics examined
here and are omitted. -/
structure Client where
  model : String
  history : List Message
  verbose : Bool
  maxHistory : Int

/-- `llm.Config`. -/
structure Config where
  host : String
  model : String
  systemPrompt : String
  verbose : Bool
  maxHistory : Int

/-- `llm.NewClient`: seeds the history with the system prompt at index 0 and
replaces a non-positive `MaxHistory` by the default 10.  (URL parsing and the
HTTP transport set-up do not affect the state modelled here.) -/
def NewClient (cfg : Config) : Client :=
  let m : Int := if cfg.maxHistory ≤ 0 then 10 else cfg.maxHistory
  { model := cfg.model
    history := [{ role := "system", content := cfg.systemPrompt }]
    verbose := cfg.verbose
    maxHistory := m }

/-- `Client.trimHistory`: keep the system prompt (index 0) and the last
`maxHistory` user/assistant pairs when the history exceeds
`1 + maxHistory*2` messages. -/
def Client.trimHistory (c : Client) : Client :=
  let maxMessages : Int := 1 + c.maxHistory * 2
  if maxMessages < (c.history.length : Int) then
    { c with history :=
        c.history.take 1 ++ c.history.drop (c.history.length - (c.maxHistory * 2).toNat) }
  else c

/-- `Client.ClearHistory`: keep only the system prompt at index 0. -/
def Client.ClearHistory (c : Client) : Client :=
  { c with history := c.history.take 1 }

/-- `Client.Chat`.  The remote chat completion is the opaque collaborator; its
outcome is passed in as `response` (`none` models a failed request, `some r`
a reply with content `r`).  The user turn is appended before the request; on
success the trimmed reply is appended as the assistant turn and the history is
trimmed; on failure the method returns the error immediately. -/
def Client.Chat (c : Client) (userMessage : String) (response : Option String) :
    Option String × Client :=
  let c1 : Client :=
    { c with history := c.history ++ [{ role := "user", content := userMessage }] }
  match response with
  | none => (none, c1)
  | some resp =>
      let finalResponse := trimSpaceStr resp
      let c2 : Client :=
        { c1 with history :=
            c1.history ++ [{ role := "assistant", content := finalResponse }] }
      (some finalResponse, c2.trimHistory)

/-- A sequence of successful chat turns: each element of `turns` is the user
message together with the reply returned by the model. -/
def runChats (c : Client) (turns : List (String × String)) : Client :=
  turns.foldl (fun acc t => (acc.Chat t.1 (some t.2)).2) c

end Llm

/-! ### STT processing loop (`cmd/assistant/main.go`, `sttProcessor`) -/

/-- One iteration of the `sttProcessor` loop for a received speech segment.
Inputs: the current interrupt flag, whether the recognizer reports speech
(`IsSpeechDetected`), and the text produced by `TranscribeSegment` for the
segment.  Output: the interrupt flag after the iteration and the transcript
forwarded to the LLM processor (`none` when nothing is sent).

Mirrors the source: the flag is stored `true` when speech is detected, the
segment is transcribed, and only in the branch that sends a non-empty
transcript on the channel is the flag stored `false` again. -/
def sttProcessorStep (interrupt : Bool) (speechDetected : Bool) (text : String) :
    Bool × Option String :=
  let interrupt1 := if speechDetected then true else interrupt
  if text = "" then (interrupt1, none)
  else (false, some text)

/-! ### Capture ring buffer (package `audio`, `ringBuffer`) -/

/-- `ringBufferSize`: number of chunk slots in the capture ring. -/
def ringBufferSize : Nat := 128

/-- `maxSamplesPerChunk`: capacity of one pre-allocated slot. -/
def maxSamplesPerChunk : Nat := 2048

/-- The lock-free capture ring (`audio.ringBuffer`).  A slot is modelled by
its valid sample prefix (`slot.samples[:slot.len]`); sample values are only
copied, never computed with, so their type is a parameter. -/
structure ringBuffer (α : Type) where
  chunks : List (List α)
  head : Nat
  tail : Nat
  dropCount : Nat

/-- `audio.newRingBuffer`: all slots pre-allocated and empty. -/
def newRingBuffer (α : Type) : ringBuffer α :=
  ⟨List.replicate ringBufferSize [], 0, 0, 0⟩

/-- `ringBuffer.push`: when `head - tail` has reached the capacity the incoming
chunk is discarded and the drop counter incremented (the `false` return);
otherwise `copy(slot.samples, samples)` stores at most `maxSamplesPerChunk`
samples in slot `head % ringBufferSize` and `head` advances. -/
def ringBuffer.push {α : Type} (rb : ringBuffer α) (samples : List α) :
    ringBuffer α × Bool :=
  if ringBufferSize ≤ rb.head - rb.tail then
    ({ rb with dropCount := rb.dropCount + 1 }, false)
  else
    ({ rb with
        chunks := rb.chunks.set (rb.head % ringBufferSize) (samples.take maxSamplesPerChunk)
        head := rb.head + 1 }, true)

/-- `ringBuffer.pop`: `none` when empty, otherwise the valid prefix of slot
`tail % ringBufferSize` with `tail` advanced. -/
def ringBuffer.pop {α : Type} (rb : ringBuffer α) :
    ringBuffer α × Option (List α) :=
  if rb.head = rb.tail then (rb, none)
  else ({ rb with tail := rb.tail + 1 },
        some (rb.chunks.getD (rb.tail % ringBufferSize) []))

/-! ### Thread-count auto-selection (package `config`) and model thread counts -/

namespace Cfg

/-- The thread-count fields of `config.Config` (the other fields do not enter
the auto-selection). -/
structure Config where
  numThreads : Int
  vadThreads : Int
  sttThreads : Int
  ttsThreads : Int

/-- `Config.normalizeThreadCounts`, with `cpuCores` the value of
`runtime.NumCPU()`. -/
def Config.normalizeThreadCounts (cpuCores : Nat) (c : Config) : Config :=
  let n : Int := if c.numThreads = 0 then max 1 ((cpuCores : Int) / 3) else c.numThreads
  { numThreads := n
    vadThreads := if c.vadThreads = 0 then 1 else c.vadThreads
    sttThreads := if c.sttThreads = 0 then n else c.sttThreads
    ttsThreads := if c.ttsThreads = 0 then n else c.ttsThreads }

/-- Thread count handed to the VAD model by `stt.NewRecognizer`
(`vadConfig.NumThreads = cfg.VADThreads`). -/
def vadModelNumThreads (vadThreads : Int) : Int := vadThreads

/-- Thread count handed to the Whisper model by `stt.NewRecognizer`
(`recognizerConfig.ModelConfig.NumThreads = cfg.STTThreads`). -/
def recognizerModelNumThreads (sttThreads : Int) : Int := sttThreads

/-- Thread count handed to the Kokoro model by `tts.NewSynthesizer`: the
source sets `ttsConfig.Model.NumThreads = 2` and never reads
`cfg.TTSThreads`. -/
def synthesizerModelNumThreads (_ttsThreads : Int) : Int := 2

end Cfg

/-! ### Resamplers (package `audio`, `polyphase.go` and the linear resampler)

Sample values and the conversion ratio are represented exactly over `ℚ`
(the Go code uses `float64` for the ratio `toRate/fromRate` and `float32`
samples; the specification's `± 1` slack on output lengths absorbs the float
rounding, and for integer rates `ratio == 1.0` holds exactly iff the rates
are equal). -/

/-- One output sample of the linear-interpolation loop shared verbatim by
`Resampler.Resample` and `PolyphaseResampler.upsample`: `srcPos = i/ratio`,
`srcIdx = int(srcPos)`, `frac = srcPos - srcIdx`, then
`sample1 + (sample2-sample1)*frac` with the boundary cases of the source. -/
def linearInterpAt (fromRate toRate : Nat) (lastSample : ℚ) (input : List ℚ)
    (i : Nat) : ℚ :=
  let srcIdx : Nat := i * fromRate / toRate
  let srcPos : ℚ := (i * fromRate : ℚ) / (toRate : ℚ)
  let frac : ℚ := srcPos - srcIdx
  let n := input.length
  let sample1 := if srcIdx < n then input.getD srcIdx 0 else lastSample
  let sample2 :=
    if srcIdx + 1 < n then input.getD (srcIdx + 1) 0
    else if srcIdx < n then input.getD (n - 1) 0
    else sample1
  sample1 + (sample2 - sample1) * frac

/-- The full linear-interpolation output: `outputLen = int(N * ratio)`
samples. -/
def linearInterpOutput (fromRate toRate : Nat) (lastSample : ℚ)
    (input : List ℚ) : List ℚ :=
  (List.range (input.length * toRate / fromRate)).map
    (linearInterpAt fromRate toRate lastSample input)

/-- The linear resampler (`audio.Resampler`); `ratio` is derived from the two
rates. -/
structure Resampler where
  fromRate : Nat
  toRate : Nat
  lastSample : ℚ

/-- `audio.NewResampler`. -/
def NewResampler (fromRate toRate : Nat) : Resampler :=
  ⟨fromRate, toRate, 0⟩

/-- `Resampler.Resample`: identity when `ratio == 1.0` or the input is empty,
otherwise linear interpolation; `lastSample` is updated to the final input
sample for continuity between chunks. -/
def Resampler.Resample (r : Resampler) (input : List ℚ) : List ℚ × Resampler :=
  if r.toRate = r.fromRate then (input, r)
  else if input.length = 0 then (input, r)
  else (linearInterpOutput r.fromRate r.toRate r.lastSample input,
        { r with lastSample := input.getLastD r.lastSample })

/-- The FIR polyphase resampler (`audio.PolyphaseResampler`).  The 64 filter
coefficients are computed at construction from windowed-sinc transcendental
float math that the examined claims do not depend on; they are carried here as
state, exactly as in the structure. -/
structure PolyphaseResampler where
  fromRate : Nat
  toRate : Nat
  filter : List ℚ
  history : List ℚ
  lastSample : ℚ

/-- One output sample of `PolyphaseResampler.downsample`: the FIR filter
applied to the history-extended input, centred at
`srcIdx = int(i/ratio) + len(history)`, skipping out-of-range taps. -/
def downsampleAt (filter combined : List ℚ) (historyLen fromRate toRate : Nat)
    (i : Nat) : ℚ :=
  let srcIdx : Int := (i * fromRate / toRate : Nat) + historyLen
  (List.range filter.length).foldl
    (fun (acc : ℚ) (j : Nat) =>
      let idx : Int := srcIdx - (filter.length / 2 : Nat) + (j : Int)
      if 0 ≤ idx ∧ idx < (combined.length : Int) then
        acc + combined.getD idx.toNat 0 * filter.getD j 0
      else acc)
    0

/-- `PolyphaseResampler.downsample`: `outputLen = int(N * ratio)` filtered
samples; the history keeps the last `filterLen` input samples (with the
shift-and-append case for short inputs). -/
def PolyphaseResampler.downsample (r : PolyphaseResampler) (input : List ℚ) :
    List ℚ × PolyphaseResampler :=
  let combined := r.history ++ input
  let out := (List.range (input.length * r.toRate / r.fromRate)).map
    (downsampleAt r.filter combined r.history.length r.fromRate r.toRate)
  let newHist :=
    if r.filter.length ≤ input.length then input.drop (input.length - r.filter.length)
    else r.history.drop input.length ++ input
  (out, { r with history := newHist })

/-- `PolyphaseResampler.upsample`: the same linear-interpolation loop as the
linear resampler. -/
def PolyphaseResampler.upsample (r : PolyphaseResampler) (input : List ℚ) :
    List ℚ × PolyphaseResampler :=
  (linearInterpOutput r.fromRate r.toRate r.lastSample input,
   { r with lastSample := input.getLastD r.lastSample })

/-- `PolyphaseResampler.Resample`: identity when `ratio == 1.0` or the input
is empty; linear interpolation when `ratio > 1.0`; polyphase filtering
otherwise. -/
def PolyphaseResampler.Resample (r : PolyphaseResampler) (input : List ℚ) :
    List ℚ × PolyphaseResampler :=
  if r.toRate = r.fromRate then (input, r)
  else if input.length = 0 then (input, r)
  else if r.fromRate < r.toRate then r.upsample input
  else r.downsample input

/-! ### Wake-word handling (package `stt`) -/

/-- The cutset of `strings.TrimLeft` in `removeWakeWord`: leading punctuation
and whitespace adjacent to the removed wake word. -/
def wakeCutset : List Char :=
  [' ', ',', '.', '!', '?', ';', ':', '-', '\'', '"']

/-- `stt.removeWakeWord`: remove the first (case-insensitive) occurrence of
the wake word, trim leading punctuation/whitespace from the concatenated
remainder, then trim surrounding whitespace. -/
def removeWakeWord (text wakeWord : List Char) : List Char :=
  match indexOfSub (lower text) (lower wakeWord) with
  | none => text
  | some idx =>
      trimSpace (trimLeftCutset wakeCutset
        (text.take idx ++ text.drop (idx + wakeWord.length)))

/-- The text-processing tail of `stt.Recognizer.TranscribeSegment`, starting
from the decoded text returned by the opaque Whisper collaborator
(`result.Text`).  `wakeWord` is the recognizer's stored wake word, which
`stt.NewRecognizer` lowercases (`strings.ToLower(cfg.WakeWord)`). -/
def TranscribeSegment (wakeWord : List Char) (decoded : List Char) : List Char :=
  let text := trimSpace decoded
  if text = [] then []
  else if wakeWord ≠ [] then
    if containsSub (lower text) wakeWord = false then []
    else
      let stripped := trimSpace (removeWakeWord text wakeWord)
      if stripped = [] then "Hello".toList else stripped
  else text

/-! ### Sentence splitting (package `tts`, `SplitSentences`) -/

/-- Sentence terminators of `tts.SplitSentences`. -/
def isTerminator (c : Char) : Bool :=
  c = '.' || c = '!' || c = '?' || c = '\n'

/-- The accumulating loop of `tts.SplitSentences`: `acc` holds the emitted
sentences, `cur` the pending builder contents; at each terminator (and at the
end of the text) the trimmed builder contents are emitted when non-empty. -/
def splitGo (acc : List (List Char)) (cur : List Char) :
    List Char → List (List Char)
  | [] => acc ++ (if trimSpace cur = [] then [] else [trimSpace cur])
  | c :: rest =>
      let cur1 := cur ++ [c]
      if isTerminator c then
        splitGo (acc ++ (if trimSpace cur1 = [] then [] else [trimSpace cur1])) [] rest
      else
        splitGo acc cur1 rest

/-- `tts.SplitSentences`. -/
def SplitSentences (text : List Char) : List (List Char) :=
  splitGo [] [] text

/-! ## Helper lemmas about the LLM client -/

namespace Llm

theorem trimHistory_length (c : Client) (hM : 1 ≤ c.maxHistory) :
    (((c.trimHistory).history.length : Int))
      = min (c.history.length : Int) (1 + 2 * c.maxHistory) := by
  unfold Client.trimHistory
  dsimp only
  split
  · rename_i h
    simp only [List.length_append, List.length_take, List.length_drop]
    have ht : ((c.maxHistory * 2).toNat : Int) = c.maxHistory * 2 :=
      Int.toNat_of_nonneg (by omega)
    omega
  · rename_i h
    omega

theorem trimHistory_head (c : Client) :
    (c.trimHistory).history.head? = c.history.head? := by
  unfold Client.trimHistory
  dsimp only
  split
  · cases c.history with
    | nil => simp
    | cons a t => simp
  · rfl

theorem ClearHistory_head (c : Client) :
    (c.ClearHistory).history.head? = c.history.head? := by
  unfold Client.ClearHistory
  cases c.history with
  | nil => simp
  | cons a t => simp

theorem Chat_some_maxHistory (c : Client) (u r : String) :
    ((c.Chat u (some r)).2).maxHistory = c.maxHistory := by
  unfold Client.Chat Client.trimHistory
  dsimp only
  split <;> rfl

theorem Chat_some_length (c : Client) (u r : String) (hM : 1 ≤ c.maxHistory) :
    ((((c.Chat u (some r)).2).history.length : Int))
      = min ((c.history.length : Int) + 2) (1 + 2 * c.maxHistory) := by
  have h := trimHistory_length
    { c with history := (c.history ++ [{ role := "user", content := u }])
        ++ [{ role := "assistant", content := trimSpaceStr r }] } hM
  simp only [List.length_append, List.length_cons, List.length_nil] at h
  unfold Client.Chat
  dsimp only
  rw [h]
  push_cast
  omega

theorem Chat_some_head (c : Client) (u r : String) (hne : c.history ≠ []) :
    ((c.Chat u (some r)).2).history.head? = c.history.head? := by
  unfold Client.Chat
  dsimp only
  rw [trimHistory_head]
  dsimp only
  cases hh : c.history with
  | nil => exact absurd hh hne
  | cons a t => simp

theorem runChats_cons (c : Client) (t : String × String)
    (ts : List (String × String)) :
    runChats c (t :: ts) = runChats ((c.Chat t.1 (some t.2)).2) ts := rfl

/-- Invariant of a run of successful chat turns: the bounded history length
and the pinned head survive every turn. -/
theorem runChats_inv (M : Int) (hM : 1 ≤ M) (hd : Option Message) :
    ∀ (turns : List (String × String)) (c : Client) (k : Nat),
      c.maxHistory = M →
      ((c.history.length : Int) = min (1 + 2 * (k : Int)) (1 + 2 * M)) →
      c.history.head? = hd →
      (runChats c turns).maxHistory = M ∧
      (((runChats c turns).history.length : Int)
          = min (1 + 2 * ((k + turns.length : Nat) : Int)) (1 + 2 * M)) ∧
      (runChats c turns).history.head? = hd := by
  intro turns
  induction turns with
  | nil =>
      intro c k h1 h2 h3
      refine ⟨h1, ?_, h3⟩
      simpa [runChats] using h2
  | cons t ts ih =>
      intro c k h1 h2 h3
      have hM' : 1 ≤ c.maxHistory := by omega
      have hne : c.history ≠ [] := by
        intro h
        rw [h] at h2
        simp at h2
        omega
      rw [runChats_cons]
      have h1' : ((c.Chat t.1 (some t.2)).2).maxHistory = M := by
        rw [Chat_some_maxHistory, h1]
      have h2' : ((((c.Chat t.1 (some t.2)).2).history.length : Int))
          = min (1 + 2 * ((k + 1 : Nat) : Int)) (1 + 2 * M) := by
        rw [Chat_some_length c t.1 t.2 hM', h2, h1]
        push_cast
        omega
      have h3' : ((c.Chat t.1 (some t.2)).2).history.head? = hd := by
        rw [Chat_some_head c t.1 t.2 hne, h3]
      have := ih ((c.Chat t.1 (some t.2)).2) (k + 1) h1' h2' h3'
      refine ⟨this.1, ?_, this.2.2⟩
      rw [this.2.1]
      simp only [List.length_cons]
      push_cast
      omega

end Llm

/-! ## Helper lemmas about the capture ring -/

theorem getD_set_self {β : Type} (l : List β) (i : Nat) (a d : β)
    (h : i < l.length) : (l.set i a).getD i d = a := by
  induction l generalizing i with
  | nil => simp at h
  | cons x xs ih =>
      cases i with
      | zero => rfl
      | succ j =>
          simp only [List.set]
          exact ih j (by simpa using h)

/-- A concrete full capture ring: 128 distinct one-sample chunks,
`head = 128`, `tail = 0`. -/
def fullRing128 : ringBuffer Int :=
  ⟨(List.range ringBufferSize).map (fun k => [(k : Int)]), ringBufferSize, 0, 0⟩

/-! ## Claim theorems -/

/-- C1: for every `max_history ≥ 1` and every sequence of `K` successful chat
turns from a freshly constructed client, the history length equals
`min (1 + 2K) (1 + 2·max_history)` and index 0 holds the original system
turn; moreover `trimHistory` and `ClearHistory` preserve the turn at
index 0. -/
theorem c1_history_invariant (host model sys : String) (v : Bool) (M : Int)
    (hM : 1 ≤ M) (turns : List (String × String)) :
    (((Llm.runChats (Llm.NewClient ⟨host, model, sys, v, M⟩) turns).history.length : Int)
        = min (1 + 2 * (turns.length : Int)) (1 + 2 * M)
      ∧ (Llm.runChats (Llm.NewClient ⟨host, model, sys, v, M⟩) turns).history.head?
          = some ⟨"system", sys⟩)
    ∧ (∀ d : Llm.Client, (d.trimHistory).history.head? = d.history.head?)
    ∧ (∀ d : Llm.Client, (d.ClearHistory).history.head? = d.history.head?) := by
  refine ⟨?_, Llm.trimHistory_head, Llm.ClearHistory_head⟩
  have h1 : (Llm.NewClient ⟨host, model, sys, v, M⟩).maxHistory = M := by
    unfold Llm.NewClient
    dsimp only
    rw [if_neg (by omega)]
  have h2 : (((Llm.NewClient ⟨host, model, sys, v, M⟩).history.length : Int))
      = min (1 + 2 * ((0 : Nat) : Int)) (1 + 2 * M) := by
    unfold Llm.NewClient
    dsimp only
    simp only [List.length_cons, List.length_nil]
    push_cast
    omega
  have h3 : (Llm.NewClient ⟨host, model, sys, v, M⟩).history.head?
      = some ⟨"system", sys⟩ := rfl
  have inv := Llm.runChats_inv M hM (some ⟨"system", sys⟩) turns
    (Llm.NewClient ⟨host, model, sys, v, M⟩) 0 h1 h2 h3
  refine ⟨?_, inv.2.2⟩
  rw [inv.2.1]
  push_cast
  omega

theorem c1_witness :
    (1 : Int) ≤ 1 ∧
    (Llm.runChats (Llm.NewClient ⟨"h", "m", "s", false, 1⟩)
        [("a", "b"), ("c", "d")]).history.head? = some ⟨"system", "s"⟩ :=
  ⟨le_refl 1,
   (c1_history_invariant "h" "m" "s" false 1 (le_refl 1) [("a", "b"), ("c", "d")]).1.2⟩

/-- C2 counterexample: a failing chat request does change the history — the
user turn of the failing exchange is appended before the request is made and
is not removed on error. -/
theorem c2_counterexample :
    ((Llm.NewClient ⟨"h", "m", "s", false, 10⟩).Chat "hi" none).2.history
      ≠ (Llm.NewClient ⟨"h", "m", "s", false, 10⟩).history := by
  intro h
  have := congrArg List.length h
  simp [Llm.Client.Chat, Llm.NewClient] at this

/-- C2 amended: when the chat completion request fails, `Chat` returns the
error and the history afterwards is the previous history with exactly the
user turn appended — no assistant turn of the failing exchange is ever
written. -/
theorem c2_error_appends_only_user_turn (c : Llm.Client) (u : String) :
    c.Chat u none
      = (none, { c with history := c.history ++ [{ role := "user", content := u }] }) :=
  rfl

/-- C3 counterexample: a speech segment whose transcription is empty leaves
the interrupt flag latched — the flag is set on segment receipt and the
clearing store is only executed in the branch that forwards a non-empty
transcript. -/
theorem c3_counterexample :
    (sttProcessorStep false true "").1 = true
    ∧ (sttProcessorStep false true "").2 = none := by
  exact ⟨rfl, rfl⟩

/-- C3 amended: in one iteration of the STT loop the interrupt flag ends
`false` exactly when a non-empty transcript is forwarded; when the
transcription is empty nothing is forwarded and the flag keeps the value it
acquired from speech detection (it stays latched if it was set). -/
theorem c3_flag_cleared_only_on_forward (i sd : Bool) (t : String) :
    (t ≠ "" → sttProcessorStep i sd t = (false, some t))
    ∧ sttProcessorStep i sd "" = ((sd || i), none) := by
  constructor
  · intro h
    unfold sttProcessorStep
    simp [h]
  · unfold sttProcessorStep
    cases sd <;> simp

theorem c3_witness :
    ("x" : String) ≠ "" ∧ sttProcessorStep true true "x" = (false, some "x") :=
  ⟨by decide, (c3_flag_cleared_only_on_forward true true "x").1 (by decide)⟩

/-- C4 counterexample: pushing onto a full capture ring leaves every slot,
`head` and `tail` unchanged (the newly pushed chunk `[999]` is the one
discarded), increments the drop counter, and the consumer still pops the
oldest chunk `[0]` — the oldest chunk is not dropped and the new chunk is not
retained. -/
theorem c4_counterexample :
    (fullRing128.push [999]).2 = false
    ∧ (fullRing128.push [999]).1.chunks = fullRing128.chunks
    ∧ (fullRing128.push [999]).1.head = fullRing128.head
    ∧ (fullRing128.push [999]).1.tail = fullRing128.tail
    ∧ (fullRing128.push [999]).1.dropCount = fullRing128.dropCount + 1
    ∧ ((fullRing128.push [999]).1.pop).2 = some [0] := by
  refine ⟨rfl, rfl, rfl, rfl, rfl, rfl⟩

/-- C4 amended: a push onto a full capture ring (`head − tail` at capacity)
drops the newly pushed chunk: the buffer contents are unchanged, the drop
counter is incremented, and `false` is returned; the producer never blocks
(push is a total function of the state). -/
theorem c4_overflow_drops_new_chunk {α : Type} (rb : ringBuffer α) (s : List α)
    (h : rb.head - rb.tail = ringBufferSize) :
    rb.push s = ({ rb with dropCount := rb.dropCount + 1 }, false) := by
  unfold ringBuffer.push
  rw [if_pos (by omega)]

theorem c4_witness :
    fullRing128.head - fullRing128.tail = ringBufferSize
    ∧ fullRing128.push [999]
        = ({ fullRing128 with dropCount := fullRing128.dropCount + 1 }, false) :=
  ⟨rfl, c4_overflow_drops_new_chunk fullRing128 [999] rfl⟩

/-- C5: with all thread settings 0, auto-selection sets the global default
`max 1 (C/3)`, forces the VAD thread count to 1, and the recognizer runs its
model with the global value — but the synthesizer does not: `NewSynthesizer`
hardcodes its model thread count to 2 and never reads the configured TTS
thread count (at `C = 3` CPUs the global value is 1 while the synthesizer
model runs with 2). -/
theorem c5_thread_autoselection :
    (∀ C : Nat,
      (Cfg.Config.normalizeThreadCounts C ⟨0, 0, 0, 0⟩).numThreads
          = max 1 ((C : Int) / 3)
      ∧ (Cfg.Config.normalizeThreadCounts C ⟨0, 0, 0, 0⟩).vadThreads = 1
      ∧ Cfg.recognizerModelNumThreads
          (Cfg.Config.normalizeThreadCounts C ⟨0, 0, 0, 0⟩).sttThreads
          = max 1 ((C : Int) / 3)
      ∧ Cfg.synthesizerModelNumThreads
          (Cfg.Config.normalizeThreadCounts C ⟨0, 0, 0, 0⟩).ttsThreads = 2)
    ∧ ((Cfg.Config.normalizeThreadCounts 3 ⟨0, 0, 0, 0⟩).numThreads = 1
        ∧ Cfg.synthesizerModelNumThreads
            (Cfg.Config.normalizeThreadCounts 3 ⟨0, 0, 0, 0⟩).ttsThreads = 2
        ∧ (2 : Int) ≠ 1) := by
  constructor
  · intro C
    refine ⟨rfl, rfl, rfl, rfl⟩
  · refine ⟨by decide, rfl, by decide⟩

/-- C9: a push onto a non-full ring succeeds, stores at most 2048 samples
(the chunk is truncated to its first `maxSamplesPerChunk` samples), does not
touch the drop counter, and the consumer receives exactly the truncated
chunk — the truncated tail is neither delivered nor counted. -/
theorem c9_push_truncates_chunk {α : Type} (rb : ringBuffer α) (s : List α)
    (hlen : rb.chunks.length = ringBufferSize)
    (h : rb.head - rb.tail < ringBufferSize) :
    (rb.push s).2 = true
    ∧ (rb.push s).1.chunks.getD (rb.head % ringBufferSize) []
        = s.take maxSamplesPerChunk
    ∧ (s.take maxSamplesPerChunk).length ≤ maxSamplesPerChunk
    ∧ (rb.push s).1.dropCount = rb.dropCount
    ∧ (rb.push s).1.head = rb.head + 1
    ∧ (rb.push s).1.tail = rb.tail
    ∧ (rb.head = rb.tail →
        ((rb.push s).1.pop).2 = some (s.take maxSamplesPerChunk)) := by
  have hidx : rb.head % ringBufferSize < rb.chunks.length := by
    rw [hlen]
    exact Nat.mod_lt _ (by norm_num [ringBufferSize])
  unfold ringBuffer.push
  rw [if_neg (by omega)]
  refine ⟨rfl, ?_, ?_, rfl, rfl, rfl, ?_⟩
  · exact getD_set_self _ _ _ _ hidx
  · simp [List.length_take]
  · intro he
    unfold ringBuffer.pop
    dsimp only
    rw [if_neg (by omega)]
    rw [he]
    exact congrArg some (getD_set_self _ _ _ _ (he ▸ hidx))

theorem c9_witness :
    ((newRingBuffer Int).chunks.length = ringBufferSize
      ∧ (newRingBuffer Int).head - (newRingBuffer Int).tail < ringBufferSize)
    ∧ (((newRingBuffer Int).push (List.replicate 3000 (0 : Int))).1.pop).2
        = some (List.replicate maxSamplesPerChunk (0 : Int)) := by
  have hlen : (newRingBuffer Int).chunks.length = ringBufferSize := by
    simp [newRingBuffer]
  have hroom : (newRingBuffer Int).head - (newRingBuffer Int).tail
      < ringBufferSize := by
    norm_num [newRingBuffer, ringBufferSize]
  have h := c9_push_truncates_chunk (newRingBuffer Int)
    (List.replicate 3000 (0 : Int)) hlen hroom
  refine ⟨⟨hlen, hroom⟩, ?_⟩
  have h2 := h.2.2.2.2.2.2 rfl
  rw [h2]
  rw [List.take_replicate]
  norm_num [maxSamplesPerChunk]

/-- C10: `NewClient` replaces a non-positive configured `MaxHistory` by the
default 10 (bounding the history by 21 messages over any run of successful
turns) and keeps a positive configured value unchanged. -/
theorem c10_default_max_history :
    (∀ (host model sys : String) (v : Bool) (m : Int), m ≤ 0 →
        (Llm.NewClient ⟨host, model, sys, v, m⟩).maxHistory = 10)
    ∧ (∀ (host model sys : String) (v : Bool) (m : Int), 0 < m →
        (Llm.NewClient ⟨host, model, sys, v, m⟩).maxHistory = m)
    ∧ (∀ (host model sys : String) (v : Bool) (m : Int)
        (turns : List (String × String)), m ≤ 0 →
        ((Llm.runChats (Llm.NewClient ⟨host, model, sys, v, m⟩) turns).history.length : Int)
          ≤ 21) := by
  refine ⟨?_, ?_, ?_⟩
  · intro host model sys v m hm
    unfold Llm.NewClient
    dsimp only
    rw [if_pos hm]
  · intro host model sys v m hm
    unfold Llm.NewClient
    dsimp only
    rw [if_neg (by omega)]
  · intro host model sys v m turns hm
    have h1 : (Llm.NewClient ⟨host, model, sys, v, m⟩).maxHistory = 10 := by
      unfold Llm.NewClient
      dsimp only
      rw [if_pos hm]
    have h2 : (((Llm.NewClient ⟨host, model, sys, v, m⟩).history.length : Int))
        = min (1 + 2 * ((0 : Nat) : Int)) (1 + 2 * 10) := by
      unfold Llm.NewClient
      dsimp only
      simp only [List.length_cons, List.length_nil]
      push_cast
      omega
    have inv := Llm.runChats_inv 10 (by norm_num)
      (some ⟨"system", sys⟩) turns (Llm.NewClient ⟨host, model, sys, v, m⟩) 0 h1 h2 rfl
    rw [inv.2.1]
    omega

theorem c10_witness :
    (0 : Int) ≤ 0 ∧ (Llm.NewClient ⟨"h", "m", "s", false, 0⟩).maxHistory = 10 :=
  ⟨le_refl 0, c10_default_max_history.1 "h" "m" "s" false 0 (le_refl 0)⟩

/-! ## Resampler length lemmas -/

theorem linearInterpOutput_length (fr tr : Nat) (last : ℚ) (input : List ℚ) :
    (linearInterpOutput fr tr last input).length = input.length * tr / fr := by
  simp [linearInterpOutput]

theorem downsample_fst_length (r : PolyphaseResampler) (input : List ℚ) :
    ((r.downsample input).1).length = input.length * r.toRate / r.fromRate := by
  simp [PolyphaseResampler.downsample]

/-- C6: for both resamplers the output length is `⌊N·r⌋ ± 1` (the embedded
computation, with the ratio `toRate/fromRate` taken exactly, realises exactly
the floor), and at ratio 1 (`toRate = fromRate`) `Resample` returns its input
unchanged with unchanged state, so resampling at ratio 1 twice equals
resampling once. -/
theorem c6_resample_length_and_ratio_one (fr tr : Nat) (hfr : 0 < fr)
    (last lastP : ℚ) (filt hist : List ℚ) (input : List ℚ) :
    ((((Resampler.mk fr tr last).Resample input).1.length : Int)
        - ((input.length * tr / fr : Nat) : Int)).natAbs ≤ 1
    ∧ ((((PolyphaseResampler.mk fr tr filt hist lastP).Resample input).1.length : Int)
        - ((input.length * tr / fr : Nat) : Int)).natAbs ≤ 1
    ∧ (fr = tr →
        (Resampler.mk fr tr last).Resample input = (input, Resampler.mk fr tr last)
        ∧ (PolyphaseResampler.mk fr tr filt hist lastP).Resample input
            = (input, PolyphaseResampler.mk fr tr filt hist lastP)
        ∧ (((Resampler.mk fr tr last).Resample input).2.Resample
              (((Resampler.mk fr tr last).Resample input).1))
            = (Resampler.mk fr tr last).Resample input
        ∧ (((PolyphaseResampler.mk fr tr filt hist lastP).Resample input).2.Resample
              (((PolyphaseResampler.mk fr tr filt hist lastP).Resample input).1))
            = (PolyphaseResampler.mk fr tr filt hist lastP).Resample input) := by
  have hcancel : ∀ n : Nat, n * fr / fr = n := fun n => Nat.mul_div_cancel n hfr
  refine ⟨?_, ?_, ?_⟩
  · unfold Resampler.Resample
    dsimp only
    split
    · rename_i h1
      rw [h1, hcancel]
      simp
    · split
      · rename_i h1 h2
        rw [h2]
        simp
      · rw [linearInterpOutput_length]
        simp
  · unfold PolyphaseResampler.Resample
    dsimp only
    split
    · rename_i h1
      rw [h1, hcancel]
      simp
    · split
      · rename_i h1 h2
        rw [h2]
        simp
      · split
        · unfold PolyphaseResampler.upsample
          dsimp only
          rw [linearInterpOutput_length]
          simp
        · rw [downsample_fst_length]
          simp
  · intro hratio
    have hlin : (Resampler.mk fr tr last).Resample input
        = (input, Resampler.mk fr tr last) := by
      unfold Resampler.Resample
      dsimp only
      rw [if_pos hratio.symm]
    have hpoly : (PolyphaseResampler.mk fr tr filt hist lastP).Resample input
        = (input, PolyphaseResampler.mk fr tr filt hist lastP) := by
      unfold PolyphaseResampler.Resample
      dsimp only
      rw [if_pos hratio.symm]
    refine ⟨hlin, hpoly, ?_, ?_⟩
    · rw [hlin]
      exact hlin
    · rw [hpoly]
      exact hpoly

theorem c6_witness :
    (0 < 2 ∧
      ((((Resampler.mk 2 1 0).Resample [1, 2, 3, 4]).1.length : Int)
          - ((([1, 2, 3, 4] : List ℚ).length * 1 / 2 : Nat) : Int)).natAbs ≤ 1)
    ∧ (Resampler.mk 3 3 0).Resample [5, 6] = ([5, 6], Resampler.mk 3 3 0) := by
  have h4 := c6_resample_length_and_ratio_one 2 1 (by norm_num) 0 0 [] [] [1, 2, 3, 4]
  have h3 := c6_resample_length_and_ratio_one 3 3 (by norm_num) 0 0 [] [] [5, 6]
  exact ⟨⟨by norm_num, h4.1⟩, (h3.2.2 rfl).1⟩

/-- C7: with a wake word configured (stored lowercased by `NewRecognizer`),
a non-empty trimmed transcript is dropped when its lowercase form does not
contain the wake word; when it does contain it, the result is the remainder
after `removeWakeWord` (first occurrence excised, adjacent leading
punctuation and whitespace trimmed), with the substitute "Hello" when
nothing remains. -/
theorem c7_wake_word_gate (wake raw : List Char) (hw : wake ≠ [])
    (hr : trimSpace raw ≠ []) :
    (containsSub (lower (trimSpace raw)) (lower wake) = false →
        TranscribeSegment (lower wake) raw = [])
    ∧ (containsSub (lower (trimSpace raw)) (lower wake) = true →
        (trimSpace (removeWakeWord (trimSpace raw) (lower wake)) = [] →
            TranscribeSegment (lower wake) raw = "Hello".toList)
        ∧ (trimSpace (removeWakeWord (trimSpace raw) (lower wake)) ≠ [] →
            TranscribeSegment (lower wake) raw
              = trimSpace (removeWakeWord (trimSpace raw) (lower wake))))
    ∧ (∀ i : Nat,
        indexOfSub (lower (trimSpace raw)) (lower (lower wake)) = some i →
        removeWakeWord (trimSpace raw) (lower wake)
          = trimSpace (trimLeftCutset wakeCutset
              ((trimSpace raw).take i
                ++ (trimSpace raw).drop (i + (lower wake).length)))) := by
  have hwl : lower wake ≠ [] := by
    intro h
    exact hw (List.map_eq_nil_iff.mp h)
  refine ⟨?_, ?_, ?_⟩
  · intro hc
    unfold TranscribeSegment
    dsimp only
    rw [if_neg hr, if_pos hwl, if_pos hc]
  · intro hc
    constructor
    · intro hs
      unfold TranscribeSegment
      dsimp only
      rw [if_neg hr, if_pos hwl, if_neg (by simp [hc]), if_pos hs]
    · intro hs
      unfold TranscribeSegment
      dsimp only
      rw [if_neg hr, if_pos hwl, if_neg (by simp [hc]), if_neg hs]
  · intro i hi
    unfold removeWakeWord
    rw [hi]

theorem c7_witness :
    ("hey assistant".toList ≠ ([] : List Char)
      ∧ trimSpace "  Hey assistant, what time is it  ".toList ≠ [])
    ∧ TranscribeSegment (lower "hey assistant".toList)
        "  Hey assistant, what time is it  ".toList = "what time is it".toList
    ∧ TranscribeSegment (lower "hey assistant".toList) " Hey assistant! ".toList
        = "Hello".toList
    ∧ TranscribeSegment (lower "hey assistant".toList) " what time is it ".toList
        = [] := by
  have h := c7_wake_word_gate "hey assistant".toList
    "  Hey assistant, what time is it  ".toList (by decide) (by decide)
  have h2 := c7_wake_word_gate "hey assistant".toList " Hey assistant! ".toList
    (by decide) (by decide)
  have h3 := c7_wake_word_gate "hey assistant".toList " what time is it ".toList
    (by decide) (by decide)
  refine ⟨⟨by decide, by decide⟩, ?_, ?_, ?_⟩
  · rw [(h.2.1 (by decide)).2 (by decide)]
    decide
  · exact (h2.2.1 (by decide)).1 (by decide)
  · exact h3.1 (by decide)

/-! ## Sentence-splitting lemmas -/

theorem forall_dropWhile_iff (p : Char → Bool) :
    ∀ s : List Char, (∀ c ∈ s.dropWhile p, p c = true) ↔ (∀ c ∈ s, p c = true) := by
  intro s
  induction s with
  | nil => simp
  | cons x xs ih =>
      by_cases hx : p x = true
      · rw [List.dropWhile_cons, if_pos hx]
        simp [ih, hx]
      · rw [List.dropWhile_cons, if_neg hx]

theorem trimSpace_eq_nil_iff (s : List Char) :
    trimSpace s = [] ↔ ∀ c ∈ s, isSpace c = true := by
  unfold trimSpace trimTrailing
  rw [List.reverse_eq_nil_iff, List.dropWhile_eq_nil_iff]
  constructor
  · intro h
    rw [← forall_dropWhile_iff isSpace s]
    intro c hc
    exact h c (List.mem_reverse.mpr hc)
  · intro h c hc
    exact (forall_dropWhile_iff isSpace s).mpr h c (List.mem_reverse.mp hc)

theorem dropWhile_concat_not (p : Char → Bool) (t : Char) (hp : p t = false) :
    ∀ l : List Char, (l ++ [t]).dropWhile p = l.dropWhile p ++ [t] := by
  intro l
  induction l with
  | nil => simp [List.dropWhile_cons, hp]
  | cons x xs ih =>
      by_cases hx : p x = true
      · simp only [List.cons_append, List.dropWhile_cons, if_pos hx]
        exact ih
      · simp only [List.cons_append, List.dropWhile_cons, if_neg hx]

theorem trimTrailing_concat_not (t : Char) (ht : isSpace t = false)
    (l : List Char) : trimTrailing (l ++ [t]) = l ++ [t] := by
  unfold trimTrailing
  rw [List.reverse_append]
  simp [List.dropWhile_cons, ht]

theorem trimSpace_concat_not (t : Char) (ht : isSpace t = false)
    (l : List Char) : trimSpace (l ++ [t]) = l.dropWhile isSpace ++ [t] := by
  unfold trimSpace
  rw [dropWhile_concat_not isSpace t ht l, trimTrailing_concat_not t ht _]

theorem splitGo_acc :
    ∀ (text : List Char) (acc : List (List Char)) (cur : List Char),
      splitGo acc cur text = acc ++ splitGo [] cur text := by
  intro text
  induction text with
  | nil => intro acc cur; simp [splitGo]
  | cons c rest ih =>
      intro acc cur
      by_cases h : isTerminator c = true
      · simp only [splitGo, h, if_true]
        rw [ih, ih (([] : List (List Char)) ++ _)]
        simp [List.append_assoc]
      · simp only [splitGo, h, if_false]
        exact ih acc (cur ++ [c])

theorem splitGo_through :
    ∀ (pre : List Char), (∀ c ∈ pre, isTerminator c = false) →
      ∀ (cur rest : List Char),
        splitGo [] cur (pre ++ rest) = splitGo [] (cur ++ pre) rest := by
  intro pre
  induction pre with
  | nil => intro _ cur rest; simp
  | cons c p ih =>
      intro h cur rest
      have hc : isTerminator c = false := h c (List.mem_cons_self c p)
      simp only [List.cons_append, splitGo]
      rw [if_neg (by simp [hc])]
      simp only [List.append_eq]
      rw [ih (fun d hd => h d (List.mem_cons_of_mem c hd)) (cur ++ [c]) rest]
      simp [List.append_assoc]

theorem splitGo_all_space :
    ∀ (text cur : List Char),
      (∀ c ∈ text, isSpace c = true) → (∀ c ∈ cur, isSpace c = true) →
      splitGo [] cur text = [] := by
  intro text
  induction text with
  | nil =>
      intro cur _ hcur
      simp [splitGo, (trimSpace_eq_nil_iff _).mpr hcur]
  | cons c rest ih =>
      intro cur h hcur
      have hc : isSpace c = true := h c (List.mem_cons_self c rest)
      have hcur1 : ∀ d ∈ cur ++ [c], isSpace d = true := by
        intro d hd
        rcases List.mem_append.mp hd with hd | hd
        · exact hcur d hd
        · simp only [List.mem_singleton] at hd
          rw [hd]
          exact hc
      have htail : ∀ d ∈ rest, isSpace d = true :=
        fun d hd => h d (List.mem_cons_of_mem c hd)
      by_cases ht : isTerminator c = true
      · simp only [splitGo, ht, if_true]
        rw [(trimSpace_eq_nil_iff _).mpr hcur1]
        simpa using ih [] htail (by simp)
      · simp only [splitGo, ht, if_false]
        exact ih (cur ++ [c]) htail hcur1

/-- C8 counterexample: the splitter does split at a newline, but the newline
terminator is trimmed away from the emitted sentence rather than kept, and a
non-empty whitespace-only text (which contains no terminator) yields zero
sentences rather than one. -/
theorem c8_counterexample :
    SplitSentences ("a\nb".toList) = [['a'], ['b']]
    ∧ (∀ s ∈ SplitSentences ("a\nb".toList), ¬ '\n' ∈ s)
    ∧ SplitSentences ("   ".toList) = []
    ∧ ("   ".toList ≠ ([] : List Char)
        ∧ ∀ c ∈ ("   ".toList : List Char), isTerminator c = false) := by
  decide

/-- C8 amended: the splitter splits on `.`, `!`, `?` and newline; each emitted
sentence is the accumulated chunk trimmed of surrounding whitespace, so the
terminators `.`, `!`, `?` are kept as the last character of their sentence
while a terminating newline is trimmed away; a text with no terminator and at
least one non-whitespace character yields exactly one sentence (its trimmed
text), and a whitespace-only text yields zero sentences. -/
theorem c8_sentence_splitting :
    (∀ (pre post : List Char) (t : Char),
        (t = '.' ∨ t = '!' ∨ t = '?') →
        (∀ c ∈ pre, isTerminator c = false) →
        SplitSentences (pre ++ t :: post)
            = trimSpace (pre ++ [t]) :: SplitSentences post
        ∧ (trimSpace (pre ++ [t])).getLast? = some t)
    ∧ (∀ text : List Char, (∀ c ∈ text, isTerminator c = false) →
        ¬ (∀ c ∈ text, isSpace c = true) →
        SplitSentences text = [trimSpace text])
    ∧ (∀ text : List Char, (∀ c ∈ text, isSpace c = true) →
        SplitSentences text = []) := by
  refine ⟨?_, ?_, ?_⟩
  · intro pre post t htri hpre
    have ht : isTerminator t = true := by
      rcases htri with h | h | h <;> subst h <;> decide
    have hsp : isSpace t = false := by
      rcases htri with h | h | h <;> subst h <;> decide
    have htr : trimSpace (pre ++ [t]) = pre.dropWhile isSpace ++ [t] :=
      trimSpace_concat_not t hsp pre
    have hne : trimSpace (pre ++ [t]) ≠ [] := by
      rw [htr]
      simp
    constructor
    · unfold SplitSentences
      rw [splitGo_through pre hpre [] (t :: post)]
      simp only [List.nil_append]
      simp only [splitGo, ht, if_true]
      rw [if_neg hne, splitGo_acc]
      simp
    · rw [htr]
      exact List.getLast?_concat _
  · intro text hnt hns
    unfold SplitSentences
    conv_lhs => rw [← List.append_nil text]
    rw [splitGo_through text hnt [] []]
    simp only [List.nil_append, splitGo]
    rw [if_neg (fun h => hns ((trimSpace_eq_nil_iff text).mp h))]
  · intro text hs
    unfold SplitSentences
    exact splitGo_all_space text [] hs (by simp)

theorem c8_witness :
    ((('.' : Char) = '.' ∨ ('.' : Char) = '!' ∨ ('.' : Char) = '?')
      ∧ (∀ c ∈ ("Hi".toList : List Char), isTerminator c = false))
    ∧ SplitSentences ("Hi".toList ++ '.' :: " Bye".toList)
        = trimSpace ("Hi".toList ++ ['.']) :: SplitSentences (" Bye".toList) := by
  have h := c8_sentence_splitting.1 "Hi".toList " Bye".toList '.'
    (Or.inl rfl) (by decide)
  exact ⟨⟨Or.inl rfl, by decide⟩, h.1⟩

end VoiceAssistant
